import Mathlib

/-!
# Clarke and Park transformations

A shallow embedding of `vector_transfs.h` / `vector_transfs.c`.

* Each C record (`tFFClarke`, `tFRClarke`, `tIFClarke`, `tIRClarke`, `tFPark`,
  `tIPark`) is a structure with the same fields in the same order.  The scalar
  type `float` is a parameter `F` carrying field operations, so every
  definition is computable (it can be run over `ℚ`); the theorems instantiate
  `F` with `ℝ`.
* Each C function `void f(T* p)` is a function `T F → T F` returning the record
  as it stands after the call.  The assignments are performed one after the
  other, each one reading the record left by the previous one, as in the C
  text.
* `sqrtf` comes from `<math.h>` and is not part of the repository: it is an
  argument of the functions expanding the macro `SQRT_3`.  The theorems pass
  `Real.sqrt`.
* Where a property depends on single-precision rounding, the two full Clarke
  functions are also given with the rounding of every arithmetic operation
  made explicit (`tFFClarke_abc2albe_rounded`, `tIFClarke_albe2abc_rounded`);
  `binary32_round` is round-to-nearest, ties-to-even, onto the finite binary32
  values, represented as rational numbers.
-/

namespace VectorTransfs

/-- Values a function-pointer field of a record can hold: the null pointer or
the address of one of the six functions of `vector_transfs.c`. -/
inductive FuncPtr where
  | null
  | tFFClarke_abc2albe
  | tFRClarke_ab2albe
  | tIFClarke_albe2abc
  | tIRClarke_albe2ab
  | tFPark_albe2dq
  | tIPark_dq2albe
  deriving DecidableEq, Repr

/-- The record `struct sFFClarke`: forward full Clarke, ABC to Al-Be. -/
structure tFFClarke (F : Type) where
  fA : F
  fB : F
  fC : F
  fAl : F
  fBe : F
  m_abc2albe : FuncPtr
  deriving DecidableEq, Repr

/-- The record `struct sFRClarke`: forward reduce Clarke, AB to Al-Be. -/
structure tFRClarke (F : Type) where
  fA : F
  fB : F
  fAl : F
  fBe : F
  m_ab2albe : FuncPtr
  deriving DecidableEq, Repr

/-- The record `struct sIFClarke`: inverse full Clarke, Al-Be to ABC. -/
structure tIFClarke (F : Type) where
  fAl : F
  fBe : F
  fA : F
  fB : F
  fC : F
  m_albe2abc : FuncPtr
  deriving DecidableEq, Repr

/-- The record `struct sIRClarke`: inverse reduce Clarke, Al-Be to AB. -/
structure tIRClarke (F : Type) where
  fAl : F
  fBe : F
  fA : F
  fB : F
  m_albe2ab : FuncPtr
  deriving DecidableEq, Repr

/-- The record `struct sFPark`: forward Park, Al-Be to DQ. -/
structure tFPark (F : Type) where
  fAl : F
  fBe : F
  fSinAng : F
  fCosAng : F
  fD : F
  fQ : F
  m_albe2dq : FuncPtr
  deriving DecidableEq, Repr

/-- The record `struct sIPark`: inverse Park, DQ to Al-Be. -/
structure tIPark (F : Type) where
  fD : F
  fQ : F
  fSinAng : F
  fCosAng : F
  fAl : F
  fBe : F
  m_dq2albe : FuncPtr
  deriving DecidableEq, Repr

section Code

variable {F : Type} [Field F]

/-- The macro `#define SQRT_3 sqrtf(3.0f)`. -/
def SQRT_3 (sqrtf : F → F) : F := sqrtf 3

/-- The function `tFFClarke_abc2albe` (vector_transfs.c, lines 61-66). -/
def tFFClarke_abc2albe (sqrtf : F → F) (ptFFClarke : tFFClarke F) : tFFClarke F :=
  let p1 : tFFClarke F :=
    { ptFFClarke with
      fAl := (2 / 3) * ptFFClarke.fA - (1 / 3) * (ptFFClarke.fB - ptFFClarke.fC) }
  { p1 with fBe := (2 / SQRT_3 sqrtf) * (p1.fB - p1.fC) }

/-- The function `tFRClarke_ab2albe` (vector_transfs.c, lines 73-77). -/
def tFRClarke_ab2albe (sqrtf : F → F) (ptFRClarke : tFRClarke F) : tFRClarke F :=
  let p1 : tFRClarke F := { ptFRClarke with fAl := ptFRClarke.fA }
  { p1 with fBe := (1 / SQRT_3 sqrtf) * (p1.fA + 2 * p1.fB) }

/-- The function `tIFClarke_albe2abc` (vector_transfs.c, lines 84-89). -/
def tIFClarke_albe2abc (sqrtf : F → F) (ptIFClarke : tIFClarke F) : tIFClarke F :=
  let p1 : tIFClarke F := { ptIFClarke with fA := ptIFClarke.fAl }
  let p2 : tIFClarke F := { p1 with fB := (1 / 2) * (-p1.fAl + SQRT_3 sqrtf * p1.fBe) }
  { p2 with fC := (1 / 2) * (-p2.fAl - SQRT_3 sqrtf * p2.fBe) }

/-- The function `tIRClarke_albe2ab` (vector_transfs.c, lines 96-100). -/
def tIRClarke_albe2ab (sqrtf : F → F) (ptIRClarke : tIRClarke F) : tIRClarke F :=
  let p1 : tIRClarke F := { ptIRClarke with fA := ptIRClarke.fAl }
  { p1 with fB := (1 / 2) * (SQRT_3 sqrtf * p1.fBe - p1.fAl) }

/-- The function `tFPark_albe2dq` (vector_transfs.c, lines 107-111). -/
def tFPark_albe2dq (ptFPark : tFPark F) : tFPark F :=
  let p1 : tFPark F :=
    { ptFPark with fD := ptFPark.fAl * ptFPark.fCosAng + ptFPark.fBe * ptFPark.fSinAng }
  { p1 with fQ := p1.fBe * p1.fCosAng - p1.fAl * p1.fSinAng }

/-- The function `tIPark_dq2albe` (vector_transfs.c, lines 118-122). -/
def tIPark_dq2albe (ptIPark : tIPark F) : tIPark F :=
  let p1 : tIPark F :=
    { ptIPark with fAl := ptIPark.fD * ptIPark.fCosAng - ptIPark.fQ * ptIPark.fSinAng }
  { p1 with fBe := p1.fQ * p1.fCosAng + p1.fD * p1.fSinAng }

/-- The initialiser `FF_CLARKE_DEFAULTS` (vector_transfs.h, lines 151-158). -/
def FF_CLARKE_DEFAULTS : tFFClarke F :=
  { fA := 0, fB := 0, fC := 0, fAl := 0, fBe := 0,
    m_abc2albe := FuncPtr.tFFClarke_abc2albe }

/-- The initialiser `FR_CLARKE_DEFAULTS` (vector_transfs.h, lines 164-170). -/
def FR_CLARKE_DEFAULTS : tFRClarke F :=
  { fA := 0, fB := 0, fAl := 0, fBe := 0,
    m_ab2albe := FuncPtr.tFRClarke_ab2albe }

/-- The initialiser `IF_CLARKE_DEFAULTS` (vector_transfs.h, lines 176-183). -/
def IF_CLARKE_DEFAULTS : tIFClarke F :=
  { fAl := 0, fBe := 0, fA := 0, fB := 0, fC := 0,
    m_albe2abc := FuncPtr.tIFClarke_albe2abc }

/-- The initialiser `IR_CLARKE_DEFAULTS` (vector_transfs.h, lines 189-195). -/
def IR_CLARKE_DEFAULTS : tIRClarke F :=
  { fAl := 0, fBe := 0, fA := 0, fB := 0,
    m_albe2ab := FuncPtr.tIRClarke_albe2ab }

/-- The initialiser `F_PARK_DEFAULTS` (vector_transfs.h, lines 201-209). -/
def F_PARK_DEFAULTS : tFPark F :=
  { fAl := 0, fBe := 0, fD := 0, fQ := 0, fSinAng := 0, fCosAng := 0,
    m_albe2dq := FuncPtr.tFPark_albe2dq }

/-- The initialiser `I_PARK_DEFAULTS` (vector_transfs.h, lines 215-223). -/
def I_PARK_DEFAULTS : tIPark F :=
  { fD := 0, fQ := 0, fAl := 0, fBe := 0, fSinAng := 0, fCosAng := 0,
    m_dq2albe := FuncPtr.tIPark_dq2albe }

/-- The function `tFFClarke_abc2albe` (vector_transfs.c, lines 61-66) with the
rounding of `float` arithmetic made explicit: `fl` is applied to the exact
result of every division, multiplication and subtraction, in the order in
which C evaluates them.  With `fl = id` this is `tFFClarke_abc2albe`. -/
def tFFClarke_abc2albe_rounded (fl : F → F) (sqrtf : F → F) (ptFFClarke : tFFClarke F) :
    tFFClarke F :=
  let p1 : tFFClarke F :=
    { ptFFClarke with
      fAl := fl (fl (fl (2 / 3) * ptFFClarke.fA) -
                 fl (fl (1 / 3) * fl (ptFFClarke.fB - ptFFClarke.fC))) }
  { p1 with fBe := fl (fl (2 / SQRT_3 sqrtf) * fl (p1.fB - p1.fC)) }

/-- The function `tIFClarke_albe2abc` (vector_transfs.c, lines 84-89) with the
rounding of `float` arithmetic made explicit: `fl` is applied to the exact
result of every multiplication, addition and subtraction.  The literal `0.5f`
and the unary minus are exact and are not rounded.  With `fl = id` this is
`tIFClarke_albe2abc`. -/
def tIFClarke_albe2abc_rounded (fl : F → F) (sqrtf : F → F) (ptIFClarke : tIFClarke F) :
    tIFClarke F :=
  let p1 : tIFClarke F := { ptIFClarke with fA := ptIFClarke.fAl }
  let p2 : tIFClarke F :=
    { p1 with fB := fl ((1 / 2) * fl (-p1.fAl + fl (SQRT_3 sqrtf * p1.fBe))) }
  { p2 with fC := fl ((1 / 2) * fl (-p2.fAl - fl (SQRT_3 sqrtf * p2.fBe))) }

end Code

/-! ## Single-precision rounding

Finite binary32 values are the rationals `m * 2 ^ e` with `|m| < 2 ^ 24` and
`-149 ≤ e ≤ 104`; the two signed zeros are the rational `0`.  Overflow to
infinity is not represented: `binary32_round` is meant for arguments below
`2 ^ 128` in absolute value. -/

/-- Number of binary digits of `n` (`0` for `n = 0`), by repeated halving; the
first argument bounds the number of halvings and is taken to be `n` itself. -/
def bitLength : ℕ → ℕ → ℕ
  | 0, _ => 0
  | fuel + 1, n => if n = 0 then 0 else bitLength fuel (n / 2) + 1

/-- The integer `k` with `2 ^ k ≤ |x| < 2 ^ (k + 1)`, for `x ≠ 0`. -/
def floorLog2 (x : ℚ) : ℤ :=
  let k : ℤ := (bitLength x.num.natAbs x.num.natAbs : ℤ) - (bitLength x.den x.den : ℤ)
  if (2 : ℚ) ^ k ≤ |x| then k else k - 1

/-- Rounding of a rational to the nearest integer, a tie going to the even
neighbour. -/
def roundHalfEven (x : ℚ) : ℤ :=
  let f : ℤ := Rat.floor x
  let r : ℚ := x - f
  if r < 1 / 2 then f
  else if 1 / 2 < r then f + 1
  else if f % 2 = 0 then f else f + 1

/-- Rounding to binary32, to nearest with ties to even: a significand of 24
bits, and the fixed spacing `2 ^ (-149)` in the subnormal range. -/
def binary32_round (x : ℚ) : ℚ :=
  if x = 0 then 0
  else
    let e : ℤ := max (floorLog2 x - 23) (-149)
    (roundHalfEven (x / 2 ^ e) : ℚ) * 2 ^ e

/-- The single-precision `sqrtf` at the only argument the code passes to it:
`sqrtf(3.0f)` is the binary32 value `0x3FDDB3D7 = 14529495 / 2 ^ 23`. -/
def binary32_sqrtf (_ : ℚ) : ℚ := 14529495 / 8388608

/-! ## Auxiliary facts about the real square root of 3 -/

/-- The value the theorems give to `SQRT_3` squares to 3. -/
theorem sqrt3_mul_self : Real.sqrt 3 * Real.sqrt 3 = 3 :=
  Real.mul_self_sqrt (by norm_num)

/-- The value the theorems give to `SQRT_3` is not zero, so the divisions
`2 / SQRT_3` and `1 / SQRT_3` are genuine. -/
theorem sqrt3_ne_zero : Real.sqrt 3 ≠ 0 := by
  intro h
  have h3 := sqrt3_mul_self
  rw [h] at h3
  norm_num at h3

/-! ## Checks of the single-precision model -/

/-- With no rounding (`fl = id`) the functions with explicit rounding are the
functions of the embedding. -/
theorem rounded_with_id_is_exact {F : Type} [Field F] (sqrtf : F → F) :
    (∀ p : tFFClarke F, tFFClarke_abc2albe_rounded id sqrtf p = tFFClarke_abc2albe sqrtf p) ∧
    (∀ p : tIFClarke F, tIFClarke_albe2abc_rounded id sqrtf p = tIFClarke_albe2abc sqrtf p) :=
  ⟨fun _ => rfl, fun _ => rfl⟩

/-- With enough fuel, `bitLength` is the number of binary digits:
`2 ^ (bitLength fuel n - 1) ≤ n < 2 ^ bitLength fuel n` for `n ≠ 0`. -/
theorem bitLength_spec (fuel n : ℕ) (hfuel : n ≤ fuel) (hn : n ≠ 0) :
    2 ^ (bitLength fuel n - 1) ≤ n ∧ n < 2 ^ bitLength fuel n := by
  induction fuel generalizing n with
  | zero => omega
  | succ fuel ih =>
    rw [bitLength, if_neg hn]
    by_cases h2 : n / 2 = 0
    · have h1 : n = 1 := by omega
      subst h1
      cases fuel <;> simp [bitLength]
    · have hle : n / 2 ≤ fuel := by omega
      obtain ⟨hlo, hhi⟩ := ih (n / 2) hle h2
      have hpos : 1 ≤ bitLength fuel (n / 2) := by
        by_contra hc
        have h0 : bitLength fuel (n / 2) = 0 := by omega
        rw [h0] at hhi
        simp at hhi
        exact h2 hhi
      constructor
      · have e : bitLength fuel (n / 2) + 1 - 1 = (bitLength fuel (n / 2) - 1) + 1 := by omega
        rw [e, pow_succ]
        omega
      · rw [pow_succ]
        omega

/-- The bounds of `bitLength_spec` with the fuel `n`, as rationals. -/
theorem bitLength_bounds_rat (n : ℕ) (hn : n ≠ 0) :
    (2 : ℚ) ^ ((bitLength n n : ℤ) - 1) ≤ (n : ℚ) ∧ (n : ℚ) < (2 : ℚ) ^ (bitLength n n : ℤ) := by
  obtain ⟨hlo, hhi⟩ := bitLength_spec n n le_rfl hn
  have hpos : 1 ≤ bitLength n n := by
    by_contra hc
    have h0 : bitLength n n = 0 := by omega
    rw [h0] at hhi
    simp at hhi
    exact hn hhi
  constructor
  · have e : ((bitLength n n : ℤ) - 1) = ((bitLength n n - 1 : ℕ) : ℤ) := by omega
    rw [e, zpow_natCast]
    exact_mod_cast hlo
  · rw [zpow_natCast]
    exact_mod_cast hhi

/-- For `x ≠ 0`, `floorLog2 x` is the exponent of the binade of `x`:
`2 ^ floorLog2 x ≤ |x| < 2 ^ (floorLog2 x + 1)`. -/
theorem floorLog2_spec (x : ℚ) (hx : x ≠ 0) :
    (2 : ℚ) ^ floorLog2 x ≤ |x| ∧ |x| < (2 : ℚ) ^ (floorLog2 x + 1) := by
  have hnum : x.num.natAbs ≠ 0 := by
    simpa using hx
  have hden : x.den ≠ 0 := x.den_nz
  obtain ⟨nlo, nhi⟩ := bitLength_bounds_rat _ hnum
  obtain ⟨dlo, dhi⟩ := bitLength_bounds_rat _ hden
  have hdpos : (0 : ℚ) < (x.den : ℚ) := by exact_mod_cast Nat.pos_of_ne_zero hden
  have habs : |x| = (x.num.natAbs : ℚ) / (x.den : ℚ) := by
    conv_lhs => rw [← Rat.num_div_den x]
    rw [abs_div, Nat.abs_cast, Nat.cast_natAbs, Int.cast_abs]
  set a : ℤ := (bitLength x.num.natAbs x.num.natAbs : ℤ) with ha
  set b : ℤ := (bitLength x.den x.den : ℤ) with hb
  have two_pos : (0 : ℚ) < 2 := by norm_num
  have two_ne : (2 : ℚ) ≠ 0 := by norm_num
  unfold floorLog2
  simp only [← ha, ← hb]
  split_ifs with hif
  · refine ⟨hif, ?_⟩
    rw [habs, div_lt_iff₀ hdpos]
    calc (x.num.natAbs : ℚ) < 2 ^ a := nhi
      _ = 2 ^ (a - b + 1) * 2 ^ (b - 1) := by
        rw [← zpow_add₀ two_ne]; congr 1; ring
      _ ≤ 2 ^ (a - b + 1) * (x.den : ℚ) :=
        mul_le_mul_of_nonneg_left dlo (le_of_lt (zpow_pos two_pos _))
  · refine ⟨?_, ?_⟩
    · rw [habs, le_div_iff₀ hdpos]
      calc (2 : ℚ) ^ (a - b - 1) * (x.den : ℚ) ≤ 2 ^ (a - b - 1) * 2 ^ b :=
            mul_le_mul_of_nonneg_left (le_of_lt dhi) (le_of_lt (zpow_pos two_pos _))
        _ = 2 ^ (a - 1) := by
          rw [← zpow_add₀ two_ne]; congr 1; ring
        _ ≤ (x.num.natAbs : ℚ) := nlo
    · have e : a - b - 1 + 1 = a - b := by ring
      rw [e]
      exact lt_of_not_le hif

/-- The integer `roundHalfEven x` is at distance at most `1/2` from `x`, and is
even when the distance is exactly `1/2`. -/
theorem roundHalfEven_spec (x : ℚ) :
    |x - (roundHalfEven x : ℚ)| ≤ 1 / 2 ∧
      (|x - (roundHalfEven x : ℚ)| = 1 / 2 → roundHalfEven x % 2 = 0) := by
  have hfl : Rat.floor x = ⌊x⌋ := rfl
  have h0 : (0 : ℚ) ≤ x - (Rat.floor x : ℤ) := by
    rw [hfl]; exact sub_nonneg.mpr (Int.floor_le x)
  have h1 : x - (Rat.floor x : ℤ) < 1 := by
    rw [hfl]; have := Int.lt_floor_add_one x; linarith
  unfold roundHalfEven
  simp only
  split_ifs with ha hb hc
  · constructor
    · rw [abs_of_nonneg h0]; exact le_of_lt ha
    · intro h; rw [abs_of_nonneg h0] at h; linarith
  · have hneg : x - ((Rat.floor x + 1 : ℤ) : ℚ) ≤ 0 := by push_cast; linarith
    constructor
    · rw [abs_of_nonpos hneg]; push_cast; linarith
    · intro h; rw [abs_of_nonpos hneg] at h; push_cast at h; linarith
  · constructor
    · rw [abs_of_nonneg h0]; linarith
    · intro _; exact hc
  · have hneg : x - ((Rat.floor x + 1 : ℤ) : ℚ) ≤ 0 := by push_cast; linarith
    constructor
    · rw [abs_of_nonpos hneg]; push_cast; linarith
    · intro _; omega

/-- Known values of `binary32_round`: `2.0f/3.0f = 0x3F2AAAAB`,
`1.0f/3.0f = 0x3EAAAAAB`, `0.1f = 0x3DCCCCCD`; ties go to the even
significand (`2^24 + 1` down, `2^24 + 3` up); representable values are fixed;
half the smallest subnormal rounds to zero and three halves of it to twice
it. -/
theorem binary32_round_known_values :
    binary32_round (2 / 3) = 11184811 / 2 ^ 24 ∧
    binary32_round (1 / 3) = 11184811 / 2 ^ 25 ∧
    binary32_round (1 / 10) = 13421773 / 2 ^ 27 ∧
    binary32_round 16777217 = 16777216 ∧
    binary32_round 16777219 = 16777220 ∧
    binary32_round (1 / 2) = 1 / 2 ∧
    binary32_round (-(1 / 2 ^ 149)) = -(1 / 2 ^ 149) ∧
    binary32_round (1 / 2 ^ 150) = 0 ∧
    binary32_round (3 / 2 ^ 150) = 2 / 2 ^ 149 := by
  decide!

/-- The value of `binary32_sqrtf` is the binary32 number nearest to the square
root of 3: its distance to `sqrt 3` is less than half the spacing `2 ^ (-23)`
of binary32 in `[1, 2)`. -/
theorem binary32_sqrtf_nearest :
    binary32_sqrtf 3 - 1 / 2 ^ 24 < Real.sqrt 3 ∧
    Real.sqrt 3 < binary32_sqrtf 3 + 1 / 2 ^ 24 := by
  have h3 : (0 : ℝ) ≤ 3 := by norm_num
  constructor
  · apply Real.lt_sqrt_of_sq_lt
    simp only [binary32_sqrtf]
    norm_num
  · rw [Real.sqrt_lt' (by simp only [binary32_sqrtf]; norm_num)]
    simp only [binary32_sqrtf]
    norm_num

/-! ## Park transformations -/

/-- C1: forward Park followed by inverse Park, with the same sine and cosine of
an angle `theta`, gives back the original `alpha` and `beta`, whatever the
other fields of the two records held before. -/
theorem park_forward_then_inverse (alpha beta theta : ℝ) (p0 : tFPark ℝ) (q0 : tIPark ℝ) :
    let p := tFPark_albe2dq
      { p0 with fAl := alpha, fBe := beta,
                fSinAng := Real.sin theta, fCosAng := Real.cos theta }
    let q := tIPark_dq2albe
      { q0 with fD := p.fD, fQ := p.fQ,
                fSinAng := Real.sin theta, fCosAng := Real.cos theta }
    q.fAl = alpha ∧ q.fBe = beta := by
  have h := Real.sin_sq_add_cos_sq theta
  simp only [tFPark_albe2dq, tIPark_dq2albe]
  constructor
  · linear_combination alpha * h
  · linear_combination beta * h

/-- C2: inverse Park followed by forward Park, with the same sine and cosine of
an angle `theta`, gives back the original `D` and `Q`, whatever the other
fields of the two records held before. -/
theorem park_inverse_then_forward (D Q theta : ℝ) (q0 : tIPark ℝ) (p0 : tFPark ℝ) :
    let q := tIPark_dq2albe
      { q0 with fD := D, fQ := Q,
                fSinAng := Real.sin theta, fCosAng := Real.cos theta }
    let p := tFPark_albe2dq
      { p0 with fAl := q.fAl, fBe := q.fBe,
                fSinAng := Real.sin theta, fCosAng := Real.cos theta }
    p.fD = D ∧ p.fQ = Q := by
  have h := Real.sin_sq_add_cos_sq theta
  simp only [tFPark_albe2dq, tIPark_dq2albe]
  constructor
  · linear_combination D * h
  · linear_combination Q * h

/-! ## Clarke transformations -/

/-- C3: forward reduce Clarke followed by inverse reduce Clarke gives back the
original `A` and `B`, whatever the other fields of the two records held
before. -/
theorem reduced_clarke_forward_then_inverse (A B : ℝ) (p0 : tFRClarke ℝ) (q0 : tIRClarke ℝ) :
    let p := tFRClarke_ab2albe Real.sqrt { p0 with fA := A, fB := B }
    let q := tIRClarke_albe2ab Real.sqrt { q0 with fAl := p.fAl, fBe := p.fBe }
    q.fA = A ∧ q.fB = B := by
  have h := sqrt3_ne_zero
  simp only [tFRClarke_ab2albe, tIRClarke_albe2ab, SQRT_3]
  refine ⟨trivial, ?_⟩
  field_simp

/-- C4 (the code at the failing input): on the balanced set `A = 1`,
`B = -1/2`, `C = -1/2` forward full Clarke followed by inverse full Clarke
returns `2/3`, `-1/3`, `-1/3`, which is not the original set. -/
theorem full_clarke_round_trip_balanced_fails (p0 : tFFClarke ℝ) (q0 : tIFClarke ℝ) :
    let p := tFFClarke_abc2albe Real.sqrt { p0 with fA := 1, fB := -1 / 2, fC := -1 / 2 }
    let q := tIFClarke_albe2abc Real.sqrt { q0 with fAl := p.fAl, fBe := p.fBe }
    (1 : ℝ) + -1 / 2 + -1 / 2 = 0 ∧
      q.fA = 2 / 3 ∧ q.fB = -1 / 3 ∧ q.fC = -1 / 3 ∧
      q.fA ≠ 1 ∧ q.fB ≠ -1 / 2 ∧ q.fC ≠ -1 / 2 := by
  simp only [tFFClarke_abc2albe, tIFClarke_albe2abc, SQRT_3]
  norm_num

/-- C5 (the code at the failing input): for `A = 1`, `B = 0` and
`C = -(A + B) = -1` forward full Clarke gives `fAl = 1/3` and
`fBe = 2 / sqrt 3` while forward reduce Clarke gives `fAl = 1` and
`fBe = 1 / sqrt 3`: the two disagree in both outputs. -/
theorem full_and_reduced_clarke_disagree (p0 : tFFClarke ℝ) (r0 : tFRClarke ℝ) :
    let p := tFFClarke_abc2albe Real.sqrt { p0 with fA := 1, fB := 0, fC := -(1 + 0) }
    let r := tFRClarke_ab2albe Real.sqrt { r0 with fA := 1, fB := 0 }
    p.fAl = 1 / 3 ∧ r.fAl = 1 ∧ p.fAl ≠ r.fAl ∧
      p.fBe = 2 / Real.sqrt 3 ∧ r.fBe = 1 / Real.sqrt 3 ∧ p.fBe ≠ r.fBe := by
  have h := sqrt3_ne_zero
  simp only [tFFClarke_abc2albe, tFRClarke_ab2albe, SQRT_3]
  refine ⟨by norm_num, trivial, by norm_num, by norm_num, by norm_num, ?_⟩
  field_simp

/-- C6 (the code at the failing input): for `fA = 1`, `fB = -1/2`,
`fC = -1/2` forward full Clarke gives `fAl = 2/3`, not `1`, and `fBe = 0`. -/
theorem full_clarke_fixture_value (p0 : tFFClarke ℝ) :
    let p := tFFClarke_abc2albe Real.sqrt { p0 with fA := 1, fB := -1 / 2, fC := -1 / 2 }
    p.fAl = 2 / 3 ∧ p.fAl ≠ 1 ∧ p.fBe = 0 := by
  simp only [tFFClarke_abc2albe, SQRT_3]
  norm_num

/-- C7: the outputs of inverse full Clarke always sum to zero, for every
`alpha` and `beta`; hence forward full Clarke followed by inverse full Clarke
produces a balanced set for any `A`, `B`, `C`. -/
theorem inverse_full_clarke_balanced :
    (∀ (alpha beta : ℝ) (q0 : tIFClarke ℝ),
      let q := tIFClarke_albe2abc Real.sqrt { q0 with fAl := alpha, fBe := beta }
      q.fA + q.fB + q.fC = 0) ∧
    (∀ (A B C : ℝ) (p0 : tFFClarke ℝ) (q0 : tIFClarke ℝ),
      let p := tFFClarke_abc2albe Real.sqrt { p0 with fA := A, fB := B, fC := C }
      let q := tIFClarke_albe2abc Real.sqrt { q0 with fAl := p.fAl, fBe := p.fBe }
      q.fA + q.fB + q.fC = 0) := by
  constructor
  · intro alpha beta q0
    simp only [tIFClarke_albe2abc]
    ring
  · intro A B C p0 q0
    simp only [tFFClarke_abc2albe, tIFClarke_albe2abc]
    ring

/-- C9: inverse reduce Clarke and inverse full Clarke produce the same `fA`
and the same `fB` from the same `alpha`, `beta`, and the `fC` of the full form
is `-(fA + fB)` of the reduced result. -/
theorem inverse_reduced_is_inverse_full_without_c (alpha beta : ℝ) (r0 : tIRClarke ℝ)
    (q0 : tIFClarke ℝ) :
    let r := tIRClarke_albe2ab Real.sqrt { r0 with fAl := alpha, fBe := beta }
    let q := tIFClarke_albe2abc Real.sqrt { q0 with fAl := alpha, fBe := beta }
    r.fA = q.fA ∧ r.fB = q.fB ∧ q.fC = -(r.fA + r.fB) := by
  simp only [tIRClarke_albe2ab, tIFClarke_albe2abc]
  refine ⟨trivial, ?_, ?_⟩
  · ring
  · ring

/-- C10: forward Park with `fSinAng = 0` and `fCosAng = 1` returns `fD = alpha`
and `fQ = beta`; in particular `alpha = 1`, `beta = 0` gives `fD = 1`,
`fQ = 0`. -/
theorem forward_park_angle_zero :
    (∀ (alpha beta : ℝ) (p0 : tFPark ℝ),
      let p := tFPark_albe2dq
        { p0 with fAl := alpha, fBe := beta, fSinAng := 0, fCosAng := 1 }
      p.fD = alpha ∧ p.fQ = beta) ∧
    (∀ p0 : tFPark ℝ,
      let p := tFPark_albe2dq
        { p0 with fAl := 1, fBe := 0, fSinAng := 0, fCosAng := 1 }
      p.fD = 1 ∧ p.fQ = 0) := by
  constructor
  · intro alpha beta p0
    simp [tFPark_albe2dq]
  · intro p0
    simp [tFPark_albe2dq]

/-! ## Fixtures, zero input and frame conditions -/

/-- C11: forward Park with `fSinAng = 1` and `fCosAng = 0` returns `fD = beta`
and `fQ = -alpha`; in particular `alpha = 1`, `beta = 0` gives `fD = 0`,
`fQ = -1`. -/
theorem forward_park_angle_ninety :
    (∀ (alpha beta : ℝ) (p0 : tFPark ℝ),
      let p := tFPark_albe2dq
        { p0 with fAl := alpha, fBe := beta, fSinAng := 1, fCosAng := 0 }
      p.fD = beta ∧ p.fQ = -alpha) ∧
    (∀ p0 : tFPark ℝ,
      let p := tFPark_albe2dq
        { p0 with fAl := 1, fBe := 0, fSinAng := 1, fCosAng := 0 }
      p.fD = 0 ∧ p.fQ = -1) := by
  constructor
  · intro alpha beta p0
    simp [tFPark_albe2dq]
  · intro p0
    simp [tFPark_albe2dq]

/-- C12: for each of the six operations, a record whose input fields are all
zero has all its output fields zero after the call, whatever the output
fields and the pointer held before. -/
theorem zero_input_zero_output :
    (∀ p0 : tFFClarke ℝ,
      let p := tFFClarke_abc2albe Real.sqrt { p0 with fA := 0, fB := 0, fC := 0 }
      p.fAl = 0 ∧ p.fBe = 0) ∧
    (∀ p0 : tFRClarke ℝ,
      let p := tFRClarke_ab2albe Real.sqrt { p0 with fA := 0, fB := 0 }
      p.fAl = 0 ∧ p.fBe = 0) ∧
    (∀ p0 : tIFClarke ℝ,
      let p := tIFClarke_albe2abc Real.sqrt { p0 with fAl := 0, fBe := 0 }
      p.fA = 0 ∧ p.fB = 0 ∧ p.fC = 0) ∧
    (∀ p0 : tIRClarke ℝ,
      let p := tIRClarke_albe2ab Real.sqrt { p0 with fAl := 0, fBe := 0 }
      p.fA = 0 ∧ p.fB = 0) ∧
    (∀ p0 : tFPark ℝ,
      let p := tFPark_albe2dq
        { p0 with fAl := 0, fBe := 0, fSinAng := 0, fCosAng := 0 }
      p.fD = 0 ∧ p.fQ = 0) ∧
    (∀ p0 : tIPark ℝ,
      let p := tIPark_dq2albe
        { p0 with fD := 0, fQ := 0, fSinAng := 0, fCosAng := 0 }
      p.fAl = 0 ∧ p.fBe = 0) := by
  refine ⟨?_, ?_, ?_, ?_, ?_, ?_⟩
  · intro p0
    simp [tFFClarke_abc2albe]
  · intro p0
    simp [tFRClarke_ab2albe]
  · intro p0
    simp [tIFClarke_albe2abc]
  · intro p0
    simp [tIRClarke_albe2ab]
  · intro p0
    simp [tFPark_albe2dq]
  · intro p0
    simp [tIPark_dq2albe]

/-- C13: frame condition.  For every record, over any scalar field and any
`sqrtf`, each of the six operations leaves every input field and the
function-pointer field as they were: only the output fields (`fAl`, `fBe` for
the forward Clarke and inverse Park records, `fA`, `fB` (and `fC`) for the
inverse Clarke records, `fD`, `fQ` for the forward Park record) can change. -/
theorem operations_change_only_outputs {F : Type} [Field F] (sqrtf : F → F) :
    (∀ p : tFFClarke F,
      (tFFClarke_abc2albe sqrtf p).fA = p.fA ∧ (tFFClarke_abc2albe sqrtf p).fB = p.fB ∧
      (tFFClarke_abc2albe sqrtf p).fC = p.fC ∧
      (tFFClarke_abc2albe sqrtf p).m_abc2albe = p.m_abc2albe) ∧
    (∀ p : tFRClarke F,
      (tFRClarke_ab2albe sqrtf p).fA = p.fA ∧ (tFRClarke_ab2albe sqrtf p).fB = p.fB ∧
      (tFRClarke_ab2albe sqrtf p).m_ab2albe = p.m_ab2albe) ∧
    (∀ p : tIFClarke F,
      (tIFClarke_albe2abc sqrtf p).fAl = p.fAl ∧ (tIFClarke_albe2abc sqrtf p).fBe = p.fBe ∧
      (tIFClarke_albe2abc sqrtf p).m_albe2abc = p.m_albe2abc) ∧
    (∀ p : tIRClarke F,
      (tIRClarke_albe2ab sqrtf p).fAl = p.fAl ∧ (tIRClarke_albe2ab sqrtf p).fBe = p.fBe ∧
      (tIRClarke_albe2ab sqrtf p).m_albe2ab = p.m_albe2ab) ∧
    (∀ p : tFPark F,
      (tFPark_albe2dq p).fAl = p.fAl ∧ (tFPark_albe2dq p).fBe = p.fBe ∧
      (tFPark_albe2dq p).fSinAng = p.fSinAng ∧ (tFPark_albe2dq p).fCosAng = p.fCosAng ∧
      (tFPark_albe2dq p).m_albe2dq = p.m_albe2dq) ∧
    (∀ p : tIPark F,
      (tIPark_dq2albe p).fD = p.fD ∧ (tIPark_dq2albe p).fQ = p.fQ ∧
      (tIPark_dq2albe p).fSinAng = p.fSinAng ∧ (tIPark_dq2albe p).fCosAng = p.fCosAng ∧
      (tIPark_dq2albe p).m_dq2albe = p.m_dq2albe) := by
  refine ⟨?_, ?_, ?_, ?_, ?_, ?_⟩
  · intro p
    exact ⟨rfl, rfl, rfl, rfl⟩
  · intro p
    exact ⟨rfl, rfl, rfl⟩
  · intro p
    exact ⟨rfl, rfl, rfl⟩
  · intro p
    exact ⟨rfl, rfl, rfl⟩
  · intro p
    exact ⟨rfl, rfl, rfl, rfl, rfl⟩
  · intro p
    exact ⟨rfl, rfl, rfl, rfl, rfl⟩

/-- C14: idempotence.  For every record, over any scalar field and any
`sqrtf`, applying one of the six operations twice gives exactly the record
obtained by applying it once; and the record an operation returns does not
depend on what the output fields held before the call. -/
theorem operations_idempotent {F : Type} [Field F] (sqrtf : F → F) :
    ((∀ p : tFFClarke F,
        tFFClarke_abc2albe sqrtf (tFFClarke_abc2albe sqrtf p) = tFFClarke_abc2albe sqrtf p) ∧
      (∀ p : tFRClarke F,
        tFRClarke_ab2albe sqrtf (tFRClarke_ab2albe sqrtf p) = tFRClarke_ab2albe sqrtf p) ∧
      (∀ p : tIFClarke F,
        tIFClarke_albe2abc sqrtf (tIFClarke_albe2abc sqrtf p) = tIFClarke_albe2abc sqrtf p) ∧
      (∀ p : tIRClarke F,
        tIRClarke_albe2ab sqrtf (tIRClarke_albe2ab sqrtf p) = tIRClarke_albe2ab sqrtf p) ∧
      (∀ p : tFPark F, tFPark_albe2dq (tFPark_albe2dq p) = tFPark_albe2dq p) ∧
      (∀ p : tIPark F, tIPark_dq2albe (tIPark_dq2albe p) = tIPark_dq2albe p)) ∧
    ((∀ (p : tFFClarke F) (x y : F),
        tFFClarke_abc2albe sqrtf { p with fAl := x, fBe := y } = tFFClarke_abc2albe sqrtf p) ∧
      (∀ (p : tFRClarke F) (x y : F),
        tFRClarke_ab2albe sqrtf { p with fAl := x, fBe := y } = tFRClarke_ab2albe sqrtf p) ∧
      (∀ (p : tIFClarke F) (x y z : F),
        tIFClarke_albe2abc sqrtf { p with fA := x, fB := y, fC := z } =
          tIFClarke_albe2abc sqrtf p) ∧
      (∀ (p : tIRClarke F) (x y : F),
        tIRClarke_albe2ab sqrtf { p with fA := x, fB := y } = tIRClarke_albe2ab sqrtf p) ∧
      (∀ (p : tFPark F) (x y : F),
        tFPark_albe2dq { p with fD := x, fQ := y } = tFPark_albe2dq p) ∧
      (∀ (p : tIPark F) (x y : F),
        tIPark_dq2albe { p with fAl := x, fBe := y } = tIPark_dq2albe p)) := by
  refine ⟨⟨?_, ?_, ?_, ?_, ?_, ?_⟩, ⟨?_, ?_, ?_, ?_, ?_, ?_⟩⟩
  · intro p
    rfl
  · intro p
    rfl
  · intro p
    rfl
  · intro p
    rfl
  · intro p
    rfl
  · intro p
    rfl
  · intro p x y
    rfl
  · intro p x y
    rfl
  · intro p x y z
    rfl
  · intro p x y
    rfl
  · intro p x y
    rfl
  · intro p x y
    rfl

/-- C15: forward Park preserves the length of the vector when the supplied
sine and cosine satisfy `s * s + c * c = 1`:
`fD * fD + fQ * fQ = alpha * alpha + beta * beta`. -/
theorem forward_park_preserves_length (alpha beta s c : ℝ) (p0 : tFPark ℝ)
    (hunit : s * s + c * c = 1) :
    let p := tFPark_albe2dq { p0 with fAl := alpha, fBe := beta, fSinAng := s, fCosAng := c }
    p.fD * p.fD + p.fQ * p.fQ = alpha * alpha + beta * beta := by
  simp only [tFPark_albe2dq]
  linear_combination (alpha * alpha + beta * beta) * hunit

/-- Witness of C15 at `alpha = 3`, `beta = 4`, `s = 3/5`, `c = 4/5`, starting
from the default record. -/
theorem forward_park_preserves_length_witness :
    (3 / 5 : ℝ) * (3 / 5) + (4 / 5) * (4 / 5) = 1 ∧
    (tFPark_albe2dq
        { (F_PARK_DEFAULTS : tFPark ℝ) with
          fAl := 3, fBe := 4, fSinAng := 3 / 5, fCosAng := 4 / 5 }).fD *
      (tFPark_albe2dq
        { (F_PARK_DEFAULTS : tFPark ℝ) with
          fAl := 3, fBe := 4, fSinAng := 3 / 5, fCosAng := 4 / 5 }).fD +
    (tFPark_albe2dq
        { (F_PARK_DEFAULTS : tFPark ℝ) with
          fAl := 3, fBe := 4, fSinAng := 3 / 5, fCosAng := 4 / 5 }).fQ *
      (tFPark_albe2dq
        { (F_PARK_DEFAULTS : tFPark ℝ) with
          fAl := 3, fBe := 4, fSinAng := 3 / 5, fCosAng := 4 / 5 }).fQ =
      (3 : ℝ) * 3 + 4 * 4 :=
  ⟨by norm_num,
   forward_park_preserves_length 3 4 (3 / 5) (4 / 5) F_PARK_DEFAULTS (by norm_num)⟩

/-- C16: each of the six default initialisers gives a record whose numeric
fields are all zero and whose function-pointer field holds the address of the
record type's own transform; that transform applied to the default record
leaves every numeric field zero (over any scalar field and any `sqrtf`). -/
theorem defaults_are_zero_and_stay_zero {F : Type} [Field F] (sqrtf : F → F) :
    (let d : tFFClarke F := FF_CLARKE_DEFAULTS
     let r := tFFClarke_abc2albe sqrtf d
     (d.fA = 0 ∧ d.fB = 0 ∧ d.fC = 0 ∧ d.fAl = 0 ∧ d.fBe = 0) ∧
       d.m_abc2albe = FuncPtr.tFFClarke_abc2albe ∧
       (r.fA = 0 ∧ r.fB = 0 ∧ r.fC = 0 ∧ r.fAl = 0 ∧ r.fBe = 0)) ∧
    (let d : tFRClarke F := FR_CLARKE_DEFAULTS
     let r := tFRClarke_ab2albe sqrtf d
     (d.fA = 0 ∧ d.fB = 0 ∧ d.fAl = 0 ∧ d.fBe = 0) ∧
       d.m_ab2albe = FuncPtr.tFRClarke_ab2albe ∧
       (r.fA = 0 ∧ r.fB = 0 ∧ r.fAl = 0 ∧ r.fBe = 0)) ∧
    (let d : tIFClarke F := IF_CLARKE_DEFAULTS
     let r := tIFClarke_albe2abc sqrtf d
     (d.fAl = 0 ∧ d.fBe = 0 ∧ d.fA = 0 ∧ d.fB = 0 ∧ d.fC = 0) ∧
       d.m_albe2abc = FuncPtr.tIFClarke_albe2abc ∧
       (r.fAl = 0 ∧ r.fBe = 0 ∧ r.fA = 0 ∧ r.fB = 0 ∧ r.fC = 0)) ∧
    (let d : tIRClarke F := IR_CLARKE_DEFAULTS
     let r := tIRClarke_albe2ab sqrtf d
     (d.fAl = 0 ∧ d.fBe = 0 ∧ d.fA = 0 ∧ d.fB = 0) ∧
       d.m_albe2ab = FuncPtr.tIRClarke_albe2ab ∧
       (r.fAl = 0 ∧ r.fBe = 0 ∧ r.fA = 0 ∧ r.fB = 0)) ∧
    (let d : tFPark F := F_PARK_DEFAULTS
     let r := tFPark_albe2dq d
     (d.fAl = 0 ∧ d.fBe = 0 ∧ d.fSinAng = 0 ∧ d.fCosAng = 0 ∧ d.fD = 0 ∧ d.fQ = 0) ∧
       d.m_albe2dq = FuncPtr.tFPark_albe2dq ∧
       (r.fAl = 0 ∧ r.fBe = 0 ∧ r.fSinAng = 0 ∧ r.fCosAng = 0 ∧ r.fD = 0 ∧ r.fQ = 0)) ∧
    (let d : tIPark F := I_PARK_DEFAULTS
     let r := tIPark_dq2albe d
     (d.fD = 0 ∧ d.fQ = 0 ∧ d.fSinAng = 0 ∧ d.fCosAng = 0 ∧ d.fAl = 0 ∧ d.fBe = 0) ∧
       d.m_dq2albe = FuncPtr.tIPark_dq2albe ∧
       (r.fD = 0 ∧ r.fQ = 0 ∧ r.fSinAng = 0 ∧ r.fCosAng = 0 ∧ r.fAl = 0 ∧ r.fBe = 0)) := by
  refine ⟨?_, ?_, ?_, ?_, ?_, ?_⟩
  · simp [FF_CLARKE_DEFAULTS, tFFClarke_abc2albe]
  · simp [FR_CLARKE_DEFAULTS, tFRClarke_ab2albe]
  · simp [IF_CLARKE_DEFAULTS, tIFClarke_albe2abc]
  · simp [IR_CLARKE_DEFAULTS, tIRClarke_albe2ab]
  · simp [F_PARK_DEFAULTS, tFPark_albe2dq]
  · simp [I_PARK_DEFAULTS, tIPark_dq2albe]

/-! ## Further compositions -/

/-- C17 (the code at the failing input): for `alpha = 1`, `beta = 1` inverse
full Clarke followed by forward full Clarke gives `fAl = 2/3 - sqrt 3 / 3` and
`fBe = 2`, neither of which is the original value `1`. -/
theorem inverse_then_forward_full_clarke_fails (q0 : tIFClarke ℝ) (p0 : tFFClarke ℝ) :
    let q := tIFClarke_albe2abc Real.sqrt { q0 with fAl := 1, fBe := 1 }
    let p := tFFClarke_abc2albe Real.sqrt { p0 with fA := q.fA, fB := q.fB, fC := q.fC }
    p.fAl = 2 / 3 - Real.sqrt 3 / 3 ∧ p.fAl ≠ 1 ∧ p.fBe = 2 ∧ p.fBe ≠ 1 := by
  have h := sqrt3_ne_zero
  have hpos : 0 ≤ Real.sqrt 3 := Real.sqrt_nonneg 3
  simp only [tFFClarke_abc2albe, tIFClarke_albe2abc, SQRT_3]
  have hAl : (2 / 3 : ℝ) * 1 -
      1 / 3 * (1 / 2 * (-1 + Real.sqrt 3 * 1) - 1 / 2 * (-1 - Real.sqrt 3 * 1)) =
      2 / 3 - Real.sqrt 3 / 3 := by ring
  have hBe : 2 / Real.sqrt 3 *
      (1 / 2 * (-1 + Real.sqrt 3 * 1) - 1 / 2 * (-1 - Real.sqrt 3 * 1)) = 2 := by
    field_simp
  refine ⟨hAl, ?_, hBe, ?_⟩
  · rw [hAl]
    intro hcontra
    linarith
  · rw [hBe]
    norm_num

/-- C18: for all real `alpha`, `beta`, `s`, `c`, forward Park followed by
inverse Park with the same `fSinAng = s`, `fCosAng = c` returns
`(s * s + c * c) * alpha` and `(s * s + c * c) * beta`; so the original vector
comes back exactly when `s * s + c * c = 1` or `alpha = beta = 0`.  Both
operations are total: they accept any `s`, `c` and check nothing. -/
theorem park_round_trip_scales (alpha beta s c : ℝ) (p0 : tFPark ℝ) (q0 : tIPark ℝ) :
    let p := tFPark_albe2dq { p0 with fAl := alpha, fBe := beta, fSinAng := s, fCosAng := c }
    let q := tIPark_dq2albe { q0 with fD := p.fD, fQ := p.fQ, fSinAng := s, fCosAng := c }
    q.fAl = (s * s + c * c) * alpha ∧ q.fBe = (s * s + c * c) * beta ∧
      ((q.fAl = alpha ∧ q.fBe = beta) ↔ (s * s + c * c = 1 ∨ (alpha = 0 ∧ beta = 0))) := by
  intro p q
  have hAl : q.fAl = (s * s + c * c) * alpha := by
    simp only [q, p, tFPark_albe2dq, tIPark_dq2albe]
    ring
  have hBe : q.fBe = (s * s + c * c) * beta := by
    simp only [q, p, tFPark_albe2dq, tIPark_dq2albe]
    ring
  refine ⟨hAl, hBe, ?_⟩
  rw [hAl, hBe]
  constructor
  · rintro ⟨ha, hb⟩
    by_cases hk : s * s + c * c = 1
    · exact Or.inl hk
    · right
      have hk1 : s * s + c * c - 1 ≠ 0 := sub_ne_zero.mpr hk
      have ha0 : (s * s + c * c - 1) * alpha = 0 := by linear_combination ha
      have hb0 : (s * s + c * c - 1) * beta = 0 := by linear_combination hb
      exact ⟨(mul_eq_zero.mp ha0).resolve_left hk1, (mul_eq_zero.mp hb0).resolve_left hk1⟩
  · rintro (hk | ⟨ha, hb⟩)
    · rw [hk]
      exact ⟨one_mul alpha, one_mul beta⟩
    · rw [ha, hb]
      exact ⟨mul_zero _, mul_zero _⟩

/-- C19: forward Park with the sine and cosine of `t1`, followed by forward
Park on the resulting `fD`, `fQ` (taken as `fAl`, `fBe`) with the sine and
cosine of `t2`, gives the same `fD`, `fQ` as one forward Park on `alpha`,
`beta` with the sine and cosine of `t1 + t2`. -/
theorem forward_park_composes (alpha beta t1 t2 : ℝ) (p0 r0 u0 : tFPark ℝ) :
    let p := tFPark_albe2dq
      { p0 with fAl := alpha, fBe := beta,
                fSinAng := Real.sin t1, fCosAng := Real.cos t1 }
    let r := tFPark_albe2dq
      { r0 with fAl := p.fD, fBe := p.fQ,
                fSinAng := Real.sin t2, fCosAng := Real.cos t2 }
    let u := tFPark_albe2dq
      { u0 with fAl := alpha, fBe := beta,
                fSinAng := Real.sin (t1 + t2), fCosAng := Real.cos (t1 + t2) }
    r.fD = u.fD ∧ r.fQ = u.fQ := by
  simp only [tFPark_albe2dq, Real.sin_add, Real.cos_add]
  constructor
  · ring
  · ring

/-- C20: inverse reduce Clarke followed by forward reduce Clarke gives back the
original `alpha` and `beta`, whatever the other fields of the two records held
before. -/
theorem reduced_clarke_inverse_then_forward (alpha beta : ℝ) (q0 : tIRClarke ℝ)
    (p0 : tFRClarke ℝ) :
    let q := tIRClarke_albe2ab Real.sqrt { q0 with fAl := alpha, fBe := beta }
    let p := tFRClarke_ab2albe Real.sqrt { p0 with fA := q.fA, fB := q.fB }
    p.fAl = alpha ∧ p.fBe = beta := by
  have h := sqrt3_ne_zero
  simp only [tFRClarke_ab2albe, tIRClarke_albe2ab, SQRT_3]
  refine ⟨trivial, ?_⟩
  field_simp

end VectorTransfs
